import Mathlib

/-
Verification of the order-matching and settlement engine of the exchange
backend.  Each definition is a shallow embedding of one Python function of
the repository (file and function named in the comment above it).  Monetary
values (Python Decimal) are modelled as rationals.  Addition, subtraction,
min and comparison of the Numeric(20,8) quantities and prices these
functions handle are exact under the default Decimal context (their results
fit in its 28 significant digits), so they are embedded as exact rational
operations; the two operations whose exact result can exceed the context
precision — the division and the multiplication that compute a pro-rata
share — are embedded with the context rounding itself (dec_div, dec_mul:
round the exact result to 28 significant digits, ties to even).
Database rows are modelled as the record values the code reads and writes;
the wallet rows touched by one operation are passed explicitly, mirroring
the query-then-mutate structure of the source.  Taker and maker are
assumed to be distinct users, so their wallet rows are distinct records.
-/

namespace Spec2Proof

/-! Wallet model, from src/backend/app/models/wallet.py (class Wallet). -/

structure Wallet where
  balance : ℚ
  locked_balance : ℚ
deriving DecidableEq, Repr

/-- Wallet.available_balance: balance - locked_balance. -/
def Wallet.available_balance (w : Wallet) : ℚ :=
  w.balance - w.locked_balance

/-- Wallet.lock_balance: succeeds iff amount <= available_balance. -/
def Wallet.lock_balance (w : Wallet) (amount : ℚ) : Bool × Wallet :=
  if amount ≤ w.available_balance then
    (true, { w with locked_balance := w.locked_balance + amount })
  else
    (false, w)

/-- Wallet.unlock_balance: succeeds iff amount <= locked_balance. -/
def Wallet.unlock_balance (w : Wallet) (amount : ℚ) : Bool × Wallet :=
  if amount ≤ w.locked_balance then
    (true, { w with locked_balance := w.locked_balance - amount })
  else
    (false, w)

/-- Wallet.add_balance: unconditional credit of the total balance. -/
def Wallet.add_balance (w : Wallet) (amount : ℚ) : Wallet :=
  { w with balance := w.balance + amount }

/-- Wallet.deduct_balance: succeeds iff amount <= balance. -/
def Wallet.deduct_balance (w : Wallet) (amount : ℚ) : Bool × Wallet :=
  if amount ≤ w.balance then
    (true, { w with balance := w.balance - amount })
  else
    (false, w)

/-- The balance-row invariant of the spec: total >= locked >= 0. -/
def WalletInvariant (w : Wallet) : Prop :=
  0 ≤ w.locked_balance ∧ w.locked_balance ≤ w.balance

instance (w : Wallet) : Decidable (WalletInvariant w) := by
  unfold WalletInvariant; infer_instance

/-! Order and Trade models, from src/backend/app/models/order.py. -/

inductive Side where
  | buy
  | sell
deriving DecidableEq, Repr

inductive OrderStatus where
  | pending
  | open_
  | partially_filled
  | filled
  | cancelled
  | rejected
deriving DecidableEq, Repr

structure Order where
  id : Nat
  order_id : Nat
  user_id : Nat
  side : Side
  price : ℚ
  quantity : ℚ
  filled_quantity : ℚ
  remaining_quantity : ℚ
  status : OrderStatus
  fee : ℚ
  created_at : Nat
  cancelled_at : Option Nat
deriving DecidableEq, Repr

/-- Order.is_filled: filled_quantity >= quantity. -/
def Order.is_filled (o : Order) : Bool :=
  if o.quantity ≤ o.filled_quantity then true else false

/-- Order.update_fill: add quantity to filled_quantity, recompute
remaining_quantity, and set status filled or partially_filled as the code
does (timestamps elided).  -/
def Order.update_fill (o : Order) (q : ℚ) : Order :=
  let o1 := { o with filled_quantity := o.filled_quantity + q }
  let o2 := { o1 with remaining_quantity := o1.quantity - o1.filled_quantity }
  if o2.is_filled then { o2 with status := .filled }
  else if 0 < o2.filled_quantity then { o2 with status := .partially_filled }
  else o2

/-- Order.cancel: succeeds from pending, open or partially_filled, stamping
cancelled_at with the current time. -/
def Order.cancel (o : Order) (now : Nat) : Bool × Order :=
  if o.status = .pending ∨ o.status = .open_ ∨ o.status = .partially_filled then
    (true, { o with status := .cancelled, cancelled_at := some now })
  else
    (false, o)

structure Trade where
  maker_order_id : Nat
  taker_order_id : Nat
  price : ℚ
  quantity : ℚ
  maker_fee : ℚ
  taker_fee : ℚ
deriving DecidableEq, Repr

/-!
Matching engine, from src/backend/app/services/matching_engine.py
(class OrderMatchingEngine).  The per-pair order book is the pair of the
bids and asks lists the engine keeps in order_books.  The engine mutates
the taker order, the touched book orders, the four wallet rows of the two
parties and appends trade records; the embedding returns the new values.
The wallet side effects of a fill do not feed back into the matching loop
(the loop reads only order fields), so the loop is embedded over orders
and trades, and the wallet mutation of one fill is embedded separately as
update_wallets_after_trade, exactly as the source splits
_execute_trade and _update_wallets_after_trade.
-/

structure OrderBook where
  bids : List Order
  asks : List Order
deriving DecidableEq, Repr

/-- The fee rate hard-coded in _execute_trade. -/
def fee_rate : ℚ := 1 / 1000

/-- The order and trade part of _execute_trade: update_fill on both
orders, accrue the two fees, and build the Trade record. -/
def execute_trade_orders (taker maker : Order) (quantity price : ℚ) :
    Order × Order × Trade :=
  let maker_fee := quantity * price * fee_rate
  let taker_fee := quantity * price * fee_rate
  let taker1 := taker.update_fill quantity
  let maker1 := maker.update_fill quantity
  let taker2 := { taker1 with fee := taker1.fee + taker_fee }
  let maker2 := { maker1 with fee := maker1.fee + maker_fee }
  (taker2, maker2, ⟨maker.id, taker.id, price, quantity, maker_fee, taker_fee⟩)

/-- The four wallet rows touched by one fill: base and quote wallet of the
taker and of the maker (distinct users, hence distinct rows). -/
structure TradeWallets where
  taker_base : Wallet
  taker_quote : Wallet
  maker_base : Wallet
  maker_quote : Wallet
deriving DecidableEq, Repr

/-- _update_wallets_after_trade: the buy-taker branch credits the buyer
base, unlocks the notional and deducts notional plus taker fee on the
buyer quote, unlocks and deducts the quantity on the seller base, and
credits notional minus maker fee on the seller quote; the sell-taker
branch is the mirror image.  Failed unlock or deduct calls leave the row
unchanged; the source ignores their return values. -/
def update_wallets_after_trade (takerSide : Side) (ws : TradeWallets)
    (quantity price taker_fee maker_fee : ℚ) : TradeWallets :=
  match takerSide with
  | .buy =>
    let buyer_base := ws.taker_base.add_balance quantity
    let buyer_quote := (ws.taker_quote.unlock_balance (quantity * price)).2
    let buyer_quote := (buyer_quote.deduct_balance (quantity * price + taker_fee)).2
    let seller_base := (ws.maker_base.unlock_balance quantity).2
    let seller_base := (seller_base.deduct_balance quantity).2
    let seller_quote := ws.maker_quote.add_balance (quantity * price - maker_fee)
    ⟨buyer_base, buyer_quote, seller_base, seller_quote⟩
  | .sell =>
    let seller_base := (ws.taker_base.unlock_balance quantity).2
    let seller_base := (seller_base.deduct_balance quantity).2
    let seller_quote := ws.taker_quote.add_balance (quantity * price - taker_fee)
    let buyer_base := ws.maker_base.add_balance quantity
    let buyer_quote := (ws.maker_quote.unlock_balance (quantity * price)).2
    let buyer_quote := (buyer_quote.deduct_balance (quantity * price + maker_fee)).2
    ⟨seller_base, seller_quote, buyer_base, buyer_quote⟩

/-- _execute_trade in full: order and trade effects plus the wallet
effects of the fill. -/
def execute_trade (taker maker : Order) (ws : TradeWallets)
    (quantity price : ℚ) : Order × Order × TradeWallets × Trade :=
  let (taker1, maker1, trade) := execute_trade_orders taker maker quantity price
  let ws1 := update_wallets_after_trade taker.side ws quantity price
    trade.taker_fee trade.maker_fee
  (taker1, maker1, ws1, trade)

/-- The opposite book side the matcher walks: asks for a buy, bids for a
sell. -/
def opposite_side (s : Side) (book : OrderBook) : List Order :=
  match s with
  | .buy => book.asks
  | .sell => book.bids

/-- Price compatibility test of the limit matchers: the source breaks on
order.price < book_order.price for a buy and on
order.price > book_order.price for a sell. -/
def price_compat (s : Side) (takerPrice boPrice : ℚ) : Bool :=
  match s with
  | .buy => if takerPrice < boPrice then false else true
  | .sell => if boPrice < takerPrice then false else true

/-- The while loop of _match_market_order: consume book orders front to
back while quantity remains, fill at the book order price, pop filled
book orders.  Returns the updated taker, the surviving opposite side, the
final remaining_qty local, and the trades in execution order. -/
def market_loop (taker : Order) (book_orders : List Order) (rem : ℚ) :
    Order × List Order × ℚ × List Trade :=
  match book_orders with
  | [] => (taker, [], rem, [])
  | bo :: rest =>
    if 0 < rem then
      let q := min rem bo.remaining_quantity
      let e := execute_trade_orders taker bo q bo.price
      let k := market_loop e.1 rest (rem - q)
      (k.1, (if e.2.1.is_filled then k.2.1 else e.2.1 :: k.2.1), k.2.2.1,
        e.2.2 :: k.2.2.2)
    else
      (taker, bo :: rest, rem, [])

/-- _match_market_order: walk the opposite side, then overwrite the taker
status with filled when the remaining quantity reached zero and
partially_filled otherwise.  The same-side list is never touched and the
taker is never inserted. -/
def match_market_order (taker : Order) (book : OrderBook) :
    Order × OrderBook × List Trade :=
  let k := market_loop taker (opposite_side taker.side book) taker.remaining_quantity
  let taker2 := { k.1 with
    status := if k.2.2.1 = 0 then .filled else .partially_filled }
  let book1 :=
    match taker.side with
    | .buy => { book with asks := k.2.1 }
    | .sell => { book with bids := k.2.1 }
  (taker2, book1, k.2.2.2)

inductive Algo where
  | FIFO
  | PRO_RATA
deriving DecidableEq, Repr

/-- The bid branch of the pro-rata insertion loop of _add_to_orderbook:
insert before the first resting order that has a lower price, or the same
price and a later created_at. -/
def insert_bid (o : Order) : List Order → List Order
  | [] => [o]
  | e :: rest =>
    if e.price < o.price ∨ (o.price = e.price ∧ o.created_at < e.created_at) then
      o :: e :: rest
    else
      e :: insert_bid o rest

/-- The ask branch of the pro-rata insertion loop of _add_to_orderbook:
insert before the first resting order that has a higher price, or the
same price and a later created_at. -/
def insert_ask (o : Order) : List Order → List Order
  | [] => [o]
  | e :: rest =>
    if o.price < e.price ∨ (o.price = e.price ∧ o.created_at < e.created_at) then
      o :: e :: rest
    else
      e :: insert_ask o rest

/-- _add_to_orderbook: under FIFO the order is appended at the end of the
side list; under PRO_RATA it is inserted by the price-time loop. -/
def add_to_orderbook (algo : Algo) (o : Order) (book : OrderBook) : OrderBook :=
  match algo, o.side with
  | .FIFO, .buy => { book with bids := book.bids ++ [o] }
  | .FIFO, .sell => { book with asks := book.asks ++ [o] }
  | .PRO_RATA, .buy => { book with bids := insert_bid o book.bids }
  | .PRO_RATA, .sell => { book with asks := insert_ask o book.asks }

/-- The while loop of _match_limit_order_fifo: like the market loop but
breaking at the first price-incompatible book order. -/
def fifo_loop (taker : Order) (book_orders : List Order) (rem : ℚ) :
    Order × List Order × ℚ × List Trade :=
  match book_orders with
  | [] => (taker, [], rem, [])
  | bo :: rest =>
    if 0 < rem then
      if price_compat taker.side taker.price bo.price then
        let q := min rem bo.remaining_quantity
        let e := execute_trade_orders taker bo q bo.price
        let k := fifo_loop e.1 rest (rem - q)
        (k.1, (if e.2.1.is_filled then k.2.1 else e.2.1 :: k.2.1), k.2.2.1,
          e.2.2 :: k.2.2.2)
      else
        (taker, bo :: rest, rem, [])
    else
      (taker, bo :: rest, rem, [])

/-- _match_limit_order_fifo: walk the opposite side FIFO; a residual
taker is given status open_ when nothing filled and partially_filled
otherwise and is inserted by _add_to_orderbook, else status filled. -/
def match_limit_order_fifo (algo : Algo) (taker : Order) (book : OrderBook) :
    Order × OrderBook × List Trade :=
  let k := fifo_loop taker (opposite_side taker.side book) taker.remaining_quantity
  let book1 :=
    match taker.side with
    | .buy => { book with asks := k.2.1 }
    | .sell => { book with bids := k.2.1 }
  if 0 < k.2.2.1 then
    let taker2 := { k.1 with
      status := if k.1.filled_quantity = 0 then .open_ else .partially_filled }
    (taker2, add_to_orderbook algo taker2 book1, k.2.2.2)
  else
    ({ k.1 with status := .filled }, book1, k.2.2.2)

/-- Round half to even, on the integer grid: the rounding mode of the
default Python Decimal context (ROUND_HALF_EVEN). -/
def rhe (x : ℚ) : ℤ :=
  if x - ⌊x⌋ < 1 / 2 then ⌊x⌋
  else if 1 / 2 < x - ⌊x⌋ then ⌊x⌋ + 1
  else if ⌊x⌋ % 2 = 0 then ⌊x⌋ else ⌊x⌋ + 1

/-- Rounding of an exact operation result under the default Python
Decimal context: keep 28 significant digits, ties to even.  The leading
digit of a nonzero x sits at power Int.log 10 of its absolute value, so
the kept grid is 27 powers below it. -/
def dec_round (x : ℚ) : ℚ :=
  if x = 0 then 0
  else (rhe (x / (10 : ℚ) ^ (Int.log 10 |x| - 27)) : ℚ)
    * (10 : ℚ) ^ (Int.log 10 |x| - 27)

/-- Division as the Decimal context performs it: exact quotient, then
context rounding. -/
def dec_div (a b : ℚ) : ℚ :=
  dec_round (a / b)

/-- Multiplication as the Decimal context performs it: exact product,
then context rounding. -/
def dec_mul (a b : ℚ) : ℚ :=
  dec_round (a * b)

/-- Continuation of the collection loop of _match_limit_order_pro_rata
once best_price is fixed: keep collecting while compatible and at the
same price, break otherwise. -/
def collect_level (s : Side) (takerPrice best_price : ℚ) :
    List Order → List Order
  | [] => []
  | bo :: rest =>
    if price_compat s takerPrice bo.price then
      if bo.price = best_price then
        bo :: collect_level s takerPrice best_price rest
      else
        []
    else
      []

/-- The collection loop of _match_limit_order_pro_rata: the compatible
orders at the best price level, a prefix of the opposite side. -/
def compatible_orders (s : Side) (takerPrice : ℚ) : List Order → List Order
  | [] => []
  | bo :: rest =>
    if price_compat s takerPrice bo.price then
      bo :: collect_level s takerPrice bo.price rest
    else
      []

/-- The full-fill branch of _match_limit_order_pro_rata (incoming
quantity at least the level total): fill every level order completely at
best_price, dropping the filled ones. -/
def fill_all_level (taker : Order) (best_price : ℚ) (level : List Order)
    (rem : ℚ) : Order × List Order × ℚ × List Trade :=
  match level with
  | [] => (taker, [], rem, [])
  | bo :: rest =>
    let q := bo.remaining_quantity
    let e := execute_trade_orders taker bo q best_price
    let k := fill_all_level e.1 best_price rest (rem - q)
    (k.1, (if e.2.1.is_filled then k.2.1 else e.2.1 :: k.2.1), k.2.2.1,
      e.2.2 :: k.2.2.2)

/-- The execution loop of the proportional branch of
_match_limit_order_pro_rata: for each precomputed allocation, fill
min of allocation, remaining quantity and the book order remainder at
best_price, skipping empty allocations. -/
def pro_rata_exec (taker : Order) (best_price : ℚ)
    (allocations : List (Order × ℚ)) (rem : ℚ) :
    Order × List Order × ℚ × List Trade :=
  match allocations with
  | [] => (taker, [], rem, [])
  | (bo, alloc) :: rest =>
    if 0 < alloc ∧ 0 < rem then
      let q := min (min alloc rem) bo.remaining_quantity
      if 0 < q then
        let e := execute_trade_orders taker bo q best_price
        let k := pro_rata_exec e.1 best_price rest (rem - q)
        (k.1, (if e.2.1.is_filled then k.2.1 else e.2.1 :: k.2.1), k.2.2.1,
          e.2.2 :: k.2.2.2)
      else
        let k := pro_rata_exec taker best_price rest rem
        (k.1, bo :: k.2.1, k.2.2.1, k.2.2.2)
    else
      let k := pro_rata_exec taker best_price rest rem
      (k.1, bo :: k.2.1, k.2.2.1, k.2.2.2)

/-- _match_limit_order_pro_rata: collect the best compatible level; with
no compatible order rest the taker with status open_; otherwise fill the
level fully when the incoming quantity covers it, else allocate
proportionally (allocated = rem times the Decimal quotient remainder
over level total, both context-rounded, computed before any execution);
rest any residual. -/
def match_limit_order_pro_rata (algo : Algo) (taker : Order) (book : OrderBook) :
    Order × OrderBook × List Trade :=
  let opp := opposite_side taker.side book
  let rem := taker.remaining_quantity
  let level := compatible_orders taker.side taker.price opp
  match level with
  | [] =>
    let taker1 := { taker with status := .open_ }
    (taker1, add_to_orderbook algo taker1 book, [])
  | bo0 :: _ =>
    let best_price := bo0.price
    let rest := opp.drop level.length
    let total := (level.map Order.remaining_quantity).sum
    let k :=
      if total ≤ rem then
        fill_all_level taker best_price level rem
      else
        pro_rata_exec taker best_price
          (level.map (fun bo =>
            (bo, dec_mul rem (dec_div bo.remaining_quantity total)))) rem
    let opp1 := k.2.1 ++ rest
    let book1 :=
      match taker.side with
      | .buy => { book with asks := opp1 }
      | .sell => { book with bids := opp1 }
    if 0 < k.2.2.1 then
      let taker2 := { k.1 with
        status := if k.1.filled_quantity = 0 then .open_ else .partially_filled }
      (taker2, add_to_orderbook algo taker2 book1, k.2.2.2)
    else
      ({ k.1 with status := .filled }, book1, k.2.2.2)

/-- _match_limit_order: dispatch on the configured algorithm. -/
def match_limit_order (algo : Algo) (taker : Order) (book : OrderBook) :
    Order × OrderBook × List Trade :=
  match algo with
  | .PRO_RATA => match_limit_order_pro_rata algo taker book
  | .FIFO => match_limit_order_fifo algo taker book

/-- One snapshot entry of get_orderbook: price, remaining quantity and
their product, per resting order.  The float conversions of the source
are modelled as exact values. -/
structure BookEntry where
  price : ℚ
  quantity : ℚ
  total : ℚ
deriving DecidableEq, Repr

/-- The entry get_orderbook builds for one resting order. -/
def order_entry (o : Order) : BookEntry :=
  ⟨o.price, o.remaining_quantity, o.price * o.remaining_quantity⟩

/-- get_orderbook: per side, one entry for each of the first depth orders
of the side list, in list order. -/
def get_orderbook (book : OrderBook) (depth : Nat) :
    List BookEntry × List BookEntry :=
  ((book.bids.take depth).map order_entry,
   (book.asks.take depth).map order_entry)

/-- The state cancel_order touches: the resolved order row, the pair
book, and the one wallet row of the locked asset (quote wallet of the
owner for a buy, base wallet for a sell). -/
structure CancelState where
  order : Order
  book : OrderBook
  wallet : Wallet
deriving DecidableEq, Repr

/-- The amount cancel_order unlocks: remaining_quantity times price for a
buy, remaining_quantity for a sell. -/
def cancel_unlock_amount (o : Order) : ℚ :=
  match o.side with
  | .buy => o.remaining_quantity * o.price
  | .sell => o.remaining_quantity

/-- cancel_order: refuse unless the status is open or partially_filled;
otherwise drop the order from its book side, unlock the remaining locked
amount (a failed unlock is ignored by the source), and mark the order
cancelled. -/
def cancel_order (s : CancelState) (now : Nat) : Bool × CancelState :=
  if s.order.status = .open_ ∨ s.order.status = .partially_filled then
    let book1 :=
      match s.order.side with
      | .buy => { s.book with
          bids := s.book.bids.filter (fun o => o.order_id ≠ s.order.order_id) }
      | .sell => { s.book with
          asks := s.book.asks.filter (fun o => o.order_id ≠ s.order.order_id) }
    let wallet1 := (s.wallet.unlock_balance (cancel_unlock_amount s.order)).2
    let order1 := (s.order.cancel now).2
    (true, ⟨order1, book1, wallet1⟩)
  else
    (false, s)

/-- Modelled from the spec, not the source: floor_scale8 truncates toward
zero to the 8th fractional digit (spec section 4.5); used only to compare
the claimed pro-rata share formula with what the source computes. -/
def floor_scale8 (x : ℚ) : ℚ :=
  (⌊x * 10 ^ 8⌋ : ℚ) / 10 ^ 8

/-- Price-time priority on the bid side: higher price first, ties by
earlier created_at.  The non-strict order preserved by insert_bid. -/
def bid_priority (a b : Order) : Prop :=
  b.price < a.price ∨ (a.price = b.price ∧ a.created_at ≤ b.created_at)

/-- Price-time priority on the ask side: lower price first, ties by
earlier created_at.  The non-strict order preserved by insert_ask. -/
def ask_priority (a b : Order) : Prop :=
  a.price < b.price ∨ (a.price = b.price ∧ a.created_at ≤ b.created_at)

/-- A book side has no two resting orders of one price split across a
worse-priced order: the sortedness statement used for the amended claim
about insertion. -/
def side_sorted (r : Order → Order → Prop) (l : List Order) : Prop :=
  List.Pairwise r l

/-!
Theorems.  Helper lemmas come first; the claim theorems are named after
the claim ids.
-/

/-- A successful unlock only lowers locked_balance. -/
theorem unlock_balance_snd_of_le (w : Wallet) (a : ℚ) (h : a ≤ w.locked_balance) :
    (w.unlock_balance a).2 = { w with locked_balance := w.locked_balance - a } := by
  simp [Wallet.unlock_balance, h]

/-- A successful deduct only lowers balance. -/
theorem deduct_balance_snd_of_le (w : Wallet) (a : ℚ) (h : a ≤ w.balance) :
    (w.deduct_balance a).2 = { w with balance := w.balance - a } := by
  simp [Wallet.deduct_balance, h]

/-- C10: lock_balance fails and leaves the row unchanged when the amount
exceeds available_balance, unlock_balance when it exceeds locked_balance,
deduct_balance when it exceeds balance; each success returns true and
changes only its designated field. -/
theorem C10_wallet_guards (w : Wallet) (a : ℚ) :
    (w.available_balance < a → w.lock_balance a = (false, w)) ∧
    (a ≤ w.available_balance →
      w.lock_balance a =
        (true, { w with locked_balance := w.locked_balance + a })) ∧
    (w.locked_balance < a → w.unlock_balance a = (false, w)) ∧
    (a ≤ w.locked_balance →
      w.unlock_balance a =
        (true, { w with locked_balance := w.locked_balance - a })) ∧
    (w.balance < a → w.deduct_balance a = (false, w)) ∧
    (a ≤ w.balance →
      w.deduct_balance a = (true, { w with balance := w.balance - a })) := by
  refine ⟨fun h => ?_, fun h => ?_, fun h => ?_, fun h => ?_, fun h => ?_,
    fun h => ?_⟩
  · simp [Wallet.lock_balance, not_le.mpr h]
  · simp [Wallet.lock_balance, h]
  · simp [Wallet.unlock_balance, not_le.mpr h]
  · simp [Wallet.unlock_balance, h]
  · simp [Wallet.deduct_balance, not_le.mpr h]
  · simp [Wallet.deduct_balance, h]

/-- C10 witness: the six cases of C10_wallet_guards at the concrete row
with balance 10 and locked 3. -/
theorem C10_wallet_guards_witness :
    ((Wallet.mk 10 3).lock_balance 8 = (false, Wallet.mk 10 3)) ∧
    ((Wallet.mk 10 3).lock_balance 5 = (true, Wallet.mk 10 8)) ∧
    ((Wallet.mk 10 3).unlock_balance 4 = (false, Wallet.mk 10 3)) ∧
    ((Wallet.mk 10 3).unlock_balance 2 = (true, Wallet.mk 10 1)) ∧
    ((Wallet.mk 10 3).deduct_balance 11 = (false, Wallet.mk 10 3)) ∧
    ((Wallet.mk 10 3).deduct_balance 7 = (true, Wallet.mk 3 3)) := by
  refine ⟨?_, ?_, ?_, ?_, ?_, ?_⟩
  · exact (C10_wallet_guards ⟨10, 3⟩ 8).1
      (by norm_num [Wallet.available_balance])
  · have h2 := (C10_wallet_guards ⟨10, 3⟩ 5).2.1
      (by norm_num [Wallet.available_balance])
    norm_num at h2
    exact h2
  · exact (C10_wallet_guards ⟨10, 3⟩ 4).2.2.1 (by norm_num)
  · have h2 := (C10_wallet_guards ⟨10, 3⟩ 2).2.2.2.1 (by norm_num)
    norm_num at h2
    exact h2
  · exact (C10_wallet_guards ⟨10, 3⟩ 11).2.2.2.2.1 (by norm_num)
  · have h2 := (C10_wallet_guards ⟨10, 3⟩ 7).2.2.2.2.2 (by norm_num)
    norm_num at h2
    exact h2

/-- C2 counterexample: a single deduct_balance mutation that breaks
total >= locked is accepted and applied.  From balance 100 and locked 50
(invariant holds), deducting 60 succeeds and leaves balance 40 below
locked 50, so the mutation was neither rejected nor left unapplied. -/
theorem C2_counterexample :
    WalletInvariant ⟨100, 50⟩ ∧
    (Wallet.mk 100 50).deduct_balance 60 = (true, ⟨40, 50⟩) ∧
    ¬ WalletInvariant ⟨40, 50⟩ := by
  refine ⟨by norm_num [WalletInvariant], ?_, by norm_num [WalletInvariant]⟩
  norm_num [Wallet.deduct_balance]

/-- C2 amended: lock_balance, unlock_balance and add_balance preserve
total >= locked >= 0, and a failing lock or unlock leaves the row
unchanged; deduct_balance guarantees only total >= 0 and rejects amounts
above total, but checks total rather than total minus locked, so an
accepted deduct can leave total below locked. -/
theorem C2_wallet_invariant (w : Wallet) (a : ℚ)
    (hw : WalletInvariant w) (ha : 0 ≤ a) :
    WalletInvariant (w.lock_balance a).2 ∧
    ((w.lock_balance a).1 = false → (w.lock_balance a).2 = w) ∧
    WalletInvariant (w.unlock_balance a).2 ∧
    ((w.unlock_balance a).1 = false → (w.unlock_balance a).2 = w) ∧
    WalletInvariant (w.add_balance a) ∧
    0 ≤ (w.deduct_balance a).2.balance ∧
    ((w.deduct_balance a).1 = false → (w.deduct_balance a).2 = w) := by
  obtain ⟨h0, h1⟩ := hw
  refine ⟨?_, ?_, ?_, ?_, ?_, ?_, ?_⟩
  · unfold Wallet.lock_balance Wallet.available_balance
    split_ifs with h
    · exact ⟨by simpa using add_nonneg h0 ha, by simp; linarith⟩
    · exact ⟨h0, h1⟩
  · unfold Wallet.lock_balance
    split_ifs with h <;> simp
  · unfold Wallet.unlock_balance
    split_ifs with h
    · exact ⟨by simp; linarith, by simp; linarith⟩
    · exact ⟨h0, h1⟩
  · unfold Wallet.unlock_balance
    split_ifs with h <;> simp
  · exact ⟨by simpa [Wallet.add_balance] using h0,
      by simp [Wallet.add_balance]; linarith⟩
  · unfold Wallet.deduct_balance
    split_ifs with h
    · simp; linarith
    · simp; linarith
  · unfold Wallet.deduct_balance
    split_ifs with h <;> simp

/-- C2 witness: C2_wallet_invariant applied at the row with balance 10,
locked 3 and amount 2. -/
theorem C2_wallet_invariant_witness :
    WalletInvariant ((Wallet.mk 10 3).lock_balance 2).2 ∧
    0 ≤ ((Wallet.mk 10 3).deduct_balance 2).2.balance :=
  ⟨(C2_wallet_invariant ⟨10, 3⟩ 2 (by norm_num [WalletInvariant])
      (by norm_num)).1,
   (C2_wallet_invariant ⟨10, 3⟩ 2 (by norm_num [WalletInvariant])
      (by norm_num)).2.2.2.2.2.1⟩

/-- C8: cancelling an order whose status is not open and not
partially_filled returns false (surfaced as NotCancellable) and changes
no order, book or wallet state. -/
theorem C8_not_cancellable_noop (s : CancelState) (now : Nat)
    (h : s.order.status ≠ .open_ ∧ s.order.status ≠ .partially_filled) :
    cancel_order s now = (false, s) := by
  unfold cancel_order
  rw [if_neg]
  rintro (h1 | h2)
  · exact h.1 h1
  · exact h.2 h2

/-- C8 witness: cancelling an already-cancelled order is a no-op. -/
theorem C8_not_cancellable_noop_witness :
    cancel_order
      ⟨⟨1, 1, 7, .buy, 50000, 1, 0, 1, .cancelled, 0, 0, some 2⟩,
        ⟨[], []⟩, ⟨100, 0⟩⟩ 5 =
    (false,
      ⟨⟨1, 1, 7, .buy, 50000, 1, 0, 1, .cancelled, 0, 0, some 2⟩,
        ⟨[], []⟩, ⟨100, 0⟩⟩) :=
  C8_not_cancellable_noop _ 5 (by exact ⟨by decide, by decide⟩)

/-- C7: cancelling a resting order (status open or partially_filled, with
the remaining lock present) unlocks exactly remaining_quantity times
limit price in quote for a buy and remaining_quantity in base for a sell,
decreases only locked_balance leaving balance unchanged, and marks the
order cancelled with cancelled_at stamped. -/
theorem C7_cancel_releases_lock (s : CancelState) (now : Nat)
    (hst : s.order.status = .open_ ∨ s.order.status = .partially_filled)
    (hamt : cancel_unlock_amount s.order ≤ s.wallet.locked_balance) :
    (cancel_order s now).1 = true ∧
    (cancel_order s now).2.wallet.balance = s.wallet.balance ∧
    (cancel_order s now).2.wallet.locked_balance
      = s.wallet.locked_balance - cancel_unlock_amount s.order ∧
    (cancel_order s now).2.order.status = .cancelled ∧
    (cancel_order s now).2.order.cancelled_at = some now := by
  unfold cancel_order
  rw [if_pos hst]
  refine ⟨rfl, ?_, ?_, ?_, ?_⟩
  · rw [unlock_balance_snd_of_le _ _ hamt]
  · rw [unlock_balance_snd_of_le _ _ hamt]
  · show ((s.order.cancel now).2).status = .cancelled
    unfold Order.cancel
    rw [if_pos (Or.inr hst)]
  · show ((s.order.cancel now).2).cancelled_at = some now
    unfold Order.cancel
    rw [if_pos (Or.inr hst)]

/-- C7 witness: cancelling a resting buy of 0.5 at 50000 with 25000
locked releases exactly 25000 of locked quote and leaves the total
unchanged. -/
theorem C7_cancel_releases_lock_witness :
    (cancel_order
      ⟨⟨1, 1, 7, .buy, 50000, 1 / 2, 0, 1 / 2, .open_, 0, 0, none⟩,
        ⟨[], []⟩, ⟨30000, 25000⟩⟩ 9).1 = true ∧
    (cancel_order
      ⟨⟨1, 1, 7, .buy, 50000, 1 / 2, 0, 1 / 2, .open_, 0, 0, none⟩,
        ⟨[], []⟩, ⟨30000, 25000⟩⟩ 9).2.wallet.balance = 30000 ∧
    (cancel_order
      ⟨⟨1, 1, 7, .buy, 50000, 1 / 2, 0, 1 / 2, .open_, 0, 0, none⟩,
        ⟨[], []⟩, ⟨30000, 25000⟩⟩ 9).2.wallet.locked_balance = 0 ∧
    (cancel_order
      ⟨⟨1, 1, 7, .buy, 50000, 1 / 2, 0, 1 / 2, .open_, 0, 0, none⟩,
        ⟨[], []⟩, ⟨30000, 25000⟩⟩ 9).2.order.status = .cancelled := by
  have h := C7_cancel_releases_lock
    ⟨⟨1, 1, 7, .buy, 50000, 1 / 2, 0, 1 / 2, .open_, 0, 0, none⟩,
      ⟨[], []⟩, ⟨30000, 25000⟩⟩ 9
    (Or.inl rfl) (by norm_num [cancel_unlock_amount])
  refine ⟨h.1, h.2.1, ?_, h.2.2.2.1⟩
  rw [h.2.2.1]
  norm_num [cancel_unlock_amount]

/-- update_fill leaves order_id unchanged. -/
@[simp] theorem update_fill_order_id (o : Order) (q : ℚ) :
    (o.update_fill q).order_id = o.order_id := by
  simp only [Order.update_fill]
  split_ifs <;> rfl

/-- update_fill leaves id unchanged. -/
@[simp] theorem update_fill_id (o : Order) (q : ℚ) :
    (o.update_fill q).id = o.id := by
  simp only [Order.update_fill]
  split_ifs <;> rfl

/-- update_fill leaves price unchanged. -/
@[simp] theorem update_fill_price (o : Order) (q : ℚ) :
    (o.update_fill q).price = o.price := by
  simp only [Order.update_fill]
  split_ifs <;> rfl

/-- update_fill leaves side unchanged. -/
@[simp] theorem update_fill_side (o : Order) (q : ℚ) :
    (o.update_fill q).side = o.side := by
  simp only [Order.update_fill]
  split_ifs <;> rfl

/-- update_fill leaves created_at unchanged. -/
@[simp] theorem update_fill_created_at (o : Order) (q : ℚ) :
    (o.update_fill q).created_at = o.created_at := by
  simp only [Order.update_fill]
  split_ifs <;> rfl

/-- The trade record built by the order part of _execute_trade. -/
@[simp] theorem eto_trade (t m : Order) (q p : ℚ) :
    (execute_trade_orders t m q p).2.2
      = ⟨m.id, t.id, p, q, q * p * fee_rate, q * p * fee_rate⟩ := rfl

/-- The maker keeps its order_id through a fill. -/
@[simp] theorem eto_maker_order_id (t m : Order) (q p : ℚ) :
    (execute_trade_orders t m q p).2.1.order_id = m.order_id := by
  simp [execute_trade_orders]

/-- The maker keeps its price through a fill. -/
@[simp] theorem eto_maker_price (t m : Order) (q p : ℚ) :
    (execute_trade_orders t m q p).2.1.price = m.price := by
  simp [execute_trade_orders]

/-- The maker keeps its id through a fill. -/
@[simp] theorem eto_maker_id (t m : Order) (q p : ℚ) :
    (execute_trade_orders t m q p).2.1.id = m.id := by
  simp [execute_trade_orders]

/-- The maker keeps its created_at through a fill. -/
@[simp] theorem eto_maker_created_at (t m : Order) (q p : ℚ) :
    (execute_trade_orders t m q p).2.1.created_at = m.created_at := by
  simp [execute_trade_orders]

/-- The taker keeps its side through a fill. -/
@[simp] theorem eto_taker_side (t m : Order) (q p : ℚ) :
    (execute_trade_orders t m q p).1.side = t.side := by
  simp [execute_trade_orders]

/-- The taker keeps its price through a fill. -/
@[simp] theorem eto_taker_price (t m : Order) (q p : ℚ) :
    (execute_trade_orders t m q p).1.price = t.price := by
  simp [execute_trade_orders]

/-- A successful unlock followed by a successful deduct lowers locked by
the first amount and balance by the second. -/
theorem unlock_then_deduct (w : Wallet) (a b : ℚ)
    (ha : a ≤ w.locked_balance) (hb : b ≤ w.balance) :
    ((w.unlock_balance a).2.deduct_balance b).2
      = ⟨w.balance - b, w.locked_balance - a⟩ := by
  simp [Wallet.unlock_balance, Wallet.deduct_balance, ha, hb]

/-- C1 counterexample: a buy-taker fill of 0.5 at 50000 with ample
balances lowers the taker locked quote by the notional 25000, not by
notional plus taker fee 25025 as claimed; the total falls by 25025. -/
theorem C1_counterexample :
    (execute_trade
      ⟨1, 1, 7, .buy, 50000, 1 / 2, 0, 1 / 2, .pending, 0, 2, none⟩
      ⟨2, 2, 8, .sell, 50000, 1 / 2, 0, 1 / 2, .open_, 0, 1, none⟩
      ⟨⟨0, 0⟩, ⟨30000, 25000⟩, ⟨2, 1 / 2⟩, ⟨0, 0⟩⟩
      (1 / 2) 50000).2.2.2.taker_fee = 25 ∧
    (25000 : ℚ) - (execute_trade
      ⟨1, 1, 7, .buy, 50000, 1 / 2, 0, 1 / 2, .pending, 0, 2, none⟩
      ⟨2, 2, 8, .sell, 50000, 1 / 2, 0, 1 / 2, .open_, 0, 1, none⟩
      ⟨⟨0, 0⟩, ⟨30000, 25000⟩, ⟨2, 1 / 2⟩, ⟨0, 0⟩⟩
      (1 / 2) 50000).2.2.1.taker_quote.locked_balance = 25000 ∧
    (30000 : ℚ) - (execute_trade
      ⟨1, 1, 7, .buy, 50000, 1 / 2, 0, 1 / 2, .pending, 0, 2, none⟩
      ⟨2, 2, 8, .sell, 50000, 1 / 2, 0, 1 / 2, .open_, 0, 1, none⟩
      ⟨⟨0, 0⟩, ⟨30000, 25000⟩, ⟨2, 1 / 2⟩, ⟨0, 0⟩⟩
      (1 / 2) 50000).2.2.1.taker_quote.balance = 25025 ∧
    (25000 : ℚ) ≠ 25025 := by
  refine ⟨?_, ?_, ?_, by norm_num⟩ <;>
    norm_num [execute_trade, execute_trade_orders, update_wallets_after_trade,
      Wallet.unlock_balance, Wallet.deduct_balance, Wallet.add_balance,
      fee_rate]

/-- C1 amended: both fees equal notional times 0.001; for a buy taker
(preconditions of each unlock and deduct holding), the taker quote row
loses the notional from locked and notional plus taker fee from total
(the source unlocks only the notional and takes the fee from the
unlocked part, instead of settling notional plus fee out of locked), the
taker base total gains the quantity, the maker base row loses the
quantity from locked and from total, and the maker quote total gains
notional minus maker fee; the sell-taker case is the mirror image. -/
theorem C1_settlement (taker maker : Order) (ws : TradeWallets)
    (quantity price : ℚ) :
    (execute_trade taker maker ws quantity price).2.2.2.taker_fee
        = quantity * price * fee_rate ∧
    (execute_trade taker maker ws quantity price).2.2.2.maker_fee
        = quantity * price * fee_rate ∧
    (taker.side = .buy →
      quantity * price ≤ ws.taker_quote.locked_balance →
      quantity * price + quantity * price * fee_rate ≤ ws.taker_quote.balance →
      quantity ≤ ws.maker_base.locked_balance →
      quantity ≤ ws.maker_base.balance →
      (execute_trade taker maker ws quantity price).2.2.1 =
        ⟨{ ws.taker_base with balance := ws.taker_base.balance + quantity },
         ⟨ws.taker_quote.balance
            - (quantity * price + quantity * price * fee_rate),
          ws.taker_quote.locked_balance - quantity * price⟩,
         ⟨ws.maker_base.balance - quantity,
          ws.maker_base.locked_balance - quantity⟩,
         { ws.maker_quote with balance := ws.maker_quote.balance
            + (quantity * price - quantity * price * fee_rate) }⟩) ∧
    (taker.side = .sell →
      quantity ≤ ws.taker_base.locked_balance →
      quantity ≤ ws.taker_base.balance →
      quantity * price ≤ ws.maker_quote.locked_balance →
      quantity * price + quantity * price * fee_rate ≤ ws.maker_quote.balance →
      (execute_trade taker maker ws quantity price).2.2.1 =
        ⟨⟨ws.taker_base.balance - quantity,
          ws.taker_base.locked_balance - quantity⟩,
         { ws.taker_quote with balance := ws.taker_quote.balance
            + (quantity * price - quantity * price * fee_rate) },
         { ws.maker_base with balance := ws.maker_base.balance + quantity },
         ⟨ws.maker_quote.balance
            - (quantity * price + quantity * price * fee_rate),
          ws.maker_quote.locked_balance - quantity * price⟩⟩) := by
  refine ⟨rfl, rfl, ?_, ?_⟩
  · intro hside h1 h2 h3 h4
    show update_wallets_after_trade taker.side ws quantity price
      (quantity * price * fee_rate) (quantity * price * fee_rate) = _
    rw [hside]
    show (⟨ws.taker_base.add_balance quantity,
      ((ws.taker_quote.unlock_balance (quantity * price)).2.deduct_balance
        (quantity * price + quantity * price * fee_rate)).2,
      ((ws.maker_base.unlock_balance quantity).2.deduct_balance quantity).2,
      ws.maker_quote.add_balance
        (quantity * price - quantity * price * fee_rate)⟩ : TradeWallets) = _
    rw [unlock_then_deduct _ _ _ h1 h2, unlock_then_deduct _ _ _ h3 h4]
    rfl
  · intro hside h1 h2 h3 h4
    show update_wallets_after_trade taker.side ws quantity price
      (quantity * price * fee_rate) (quantity * price * fee_rate) = _
    rw [hside]
    show (⟨((ws.taker_base.unlock_balance quantity).2.deduct_balance quantity).2,
      ws.taker_quote.add_balance
        (quantity * price - quantity * price * fee_rate),
      ws.maker_base.add_balance quantity,
      ((ws.maker_quote.unlock_balance (quantity * price)).2.deduct_balance
        (quantity * price + quantity * price * fee_rate)).2⟩ : TradeWallets) = _
    rw [unlock_then_deduct _ _ _ h1 h2, unlock_then_deduct _ _ _ h3 h4]
    rfl

/-- C1 witness: the buy branch of C1_settlement at the literal scenario,
quantity 0.5 at price 50000 with locked 25000 and balance 25025 on the
taker quote row. -/
theorem C1_settlement_witness :
    (execute_trade
      ⟨1, 1, 7, .buy, 50000, 1 / 2, 0, 1 / 2, .pending, 0, 2, none⟩
      ⟨2, 2, 8, .sell, 50000, 1 / 2, 0, 1 / 2, .open_, 0, 1, none⟩
      ⟨⟨0, 0⟩, ⟨25025, 25000⟩, ⟨2, 1 / 2⟩, ⟨0, 0⟩⟩
      (1 / 2) 50000).2.2.1 =
    ⟨⟨1 / 2, 0⟩, ⟨0, 0⟩, ⟨3 / 2, 0⟩, ⟨24975, 0⟩⟩ := by
  have h := (C1_settlement
    ⟨1, 1, 7, .buy, 50000, 1 / 2, 0, 1 / 2, .pending, 0, 2, none⟩
    ⟨2, 2, 8, .sell, 50000, 1 / 2, 0, 1 / 2, .open_, 0, 1, none⟩
    ⟨⟨0, 0⟩, ⟨25025, 25000⟩, ⟨2, 1 / 2⟩, ⟨0, 0⟩⟩
    (1 / 2) 50000).2.2.1 rfl (by norm_num [fee_rate]) (by norm_num [fee_rate])
    (by norm_num) (by norm_num)
  rw [h]
  norm_num [fee_rate]

/-- Every trade the market loop emits matches a book order of the input
list, at that order's price, referencing its id. -/
theorem market_loop_trades (bos : List Order) : ∀ (taker : Order) (rem : ℚ),
    ∀ t ∈ (market_loop taker bos rem).2.2.2, ∃ m ∈ bos,
      t.maker_order_id = m.id ∧ t.price = m.price := by
  induction bos with
  | nil =>
    intro taker rem t ht
    simp [market_loop] at ht
  | cons bo rest ih =>
    intro taker rem t ht
    by_cases h : 0 < rem
    · simp only [market_loop, if_pos h] at ht
      rcases List.mem_cons.mp ht with rfl | hmem
      · exact ⟨bo, List.mem_cons_self _ _, by simp, by simp⟩
      · obtain ⟨m, hm, h1, h2⟩ := ih _ _ t hmem
        exact ⟨m, List.mem_cons_of_mem _ hm, h1, h2⟩
    · simp [market_loop, if_neg h] at ht

/-- Every order left on the book side by the market loop carries the
order_id of an input book order. -/
theorem market_loop_ids (bos : List Order) : ∀ (taker : Order) (rem : ℚ),
    ∀ o ∈ (market_loop taker bos rem).2.1,
      ∃ m ∈ bos, o.order_id = m.order_id := by
  induction bos with
  | nil =>
    intro taker rem o ho
    simp [market_loop] at ho
  | cons bo rest ih =>
    intro taker rem o ho
    by_cases h : 0 < rem
    · simp only [market_loop, if_pos h] at ho
      split at ho
      · obtain ⟨m, hm, h1⟩ := ih _ _ o ho
        exact ⟨m, List.mem_cons_of_mem _ hm, h1⟩
      · rcases List.mem_cons.mp ho with rfl | hmem
        · exact ⟨bo, List.mem_cons_self _ _, by simp⟩
        · obtain ⟨m, hm, h1⟩ := ih _ _ o hmem
          exact ⟨m, List.mem_cons_of_mem _ hm, h1⟩
    · simp only [market_loop, if_neg h] at ho
      exact ⟨o, ho, rfl⟩

/-- C4 counterexample: a market buy of 1 into an empty ask side ends
partially_filled, not rejected; and a market buy of 1 into a single ask
of 0.5 consumes 0.5, exhausts the book, and also ends partially_filled,
not filled. -/
theorem C4_counterexample :
    (match_market_order
      ⟨1, 1, 7, .buy, 0, 1, 0, 1, .pending, 0, 1, none⟩
      ⟨[], []⟩).1.status = .partially_filled ∧
    (match_market_order
      ⟨1, 1, 7, .buy, 0, 1, 0, 1, .pending, 0, 1, none⟩
      ⟨[], [⟨2, 2, 8, .sell, 49000, 1 / 2, 0, 1 / 2, .open_, 0, 0, none⟩]⟩).1.status
      = .partially_filled ∧
    (match_market_order
      ⟨1, 1, 7, .buy, 0, 1, 0, 1, .pending, 0, 1, none⟩
      ⟨[], [⟨2, 2, 8, .sell, 49000, 1 / 2, 0, 1 / 2, .open_, 0, 0, none⟩]⟩).2.1.asks
      = [] ∧
    (match_market_order
      ⟨1, 1, 7, .buy, 0, 1, 0, 1, .pending, 0, 1, none⟩
      ⟨[], [⟨2, 2, 8, .sell, 49000, 1 / 2, 0, 1 / 2, .open_, 0, 0, none⟩]⟩).2.2.map
        Trade.quantity = [1 / 2] ∧
    OrderStatus.partially_filled ≠ .rejected ∧
    OrderStatus.partially_filled ≠ .filled := by
  refine ⟨?_, ?_, ?_, ?_, by decide, by decide⟩ <;>
    norm_num [match_market_order, market_loop, opposite_side,
      execute_trade_orders, Order.update_fill, Order.is_filled, fee_rate,
      min_def]

/-- C4 amended: a market order never receives status rejected: with an
empty opposite side (and residual quantity) it ends partially_filled, as
it does whenever residual quantity remains; it ends filled only when its
quantity was fully consumed; and it is never inserted into the book. -/
theorem C4_market_order_status (taker : Order) (book : OrderBook)
    (hid : ∀ o ∈ book.bids ++ book.asks, o.order_id ≠ taker.order_id) :
    ((match_market_order taker book).1.status = .filled ∨
      (match_market_order taker book).1.status = .partially_filled) ∧
    (match_market_order taker book).1.status ≠ .rejected ∧
    (opposite_side taker.side book = [] → 0 < taker.remaining_quantity →
      (match_market_order taker book).1.status = .partially_filled) ∧
    (taker.side = .buy → (match_market_order taker book).2.1.bids = book.bids) ∧
    (taker.side = .sell → (match_market_order taker book).2.1.asks = book.asks) ∧
    (∀ o ∈ (match_market_order taker book).2.1.bids ++
        (match_market_order taker book).2.1.asks,
      o.order_id ≠ taker.order_id) := by
  refine ⟨?_, ?_, ?_, ?_, ?_, ?_⟩
  · simp only [match_market_order]
    by_cases h : (market_loop taker (opposite_side taker.side book)
        taker.remaining_quantity).2.2.1 = 0
    · left; simp [h]
    · right; simp [h]
  · simp only [match_market_order]
    by_cases h : (market_loop taker (opposite_side taker.side book)
        taker.remaining_quantity).2.2.1 = 0
    · simp [h]
    · simp [h]
  · intro hempty hrem
    simp only [match_market_order, hempty, market_loop]
    rw [if_neg (ne_of_gt hrem)]
  · intro hside
    simp [match_market_order, hside]
  · intro hside
    simp [match_market_order, hside]
  · intro o ho
    have hloop := market_loop_ids (opposite_side taker.side book) taker
      taker.remaining_quantity
    cases hside : taker.side with
    | buy =>
      simp only [match_market_order, hside] at ho
      rcases List.mem_append.mp ho with hb | ha
      · exact hid o (List.mem_append.mpr (Or.inl hb))
      · rw [hside] at hloop
        obtain ⟨m, hm, h1⟩ := hloop o ha
        rw [h1]
        exact hid m (List.mem_append.mpr (Or.inr hm))
    | sell =>
      simp only [match_market_order, hside] at ho
      rcases List.mem_append.mp ho with hb | ha
      · rw [hside] at hloop
        obtain ⟨m, hm, h1⟩ := hloop o hb
        rw [h1]
        exact hid m (List.mem_append.mpr (Or.inl hm))
      · exact hid o (List.mem_append.mpr (Or.inr ha))

/-- C4 witness: C4_market_order_status at a market buy of 1 into an
empty book. -/
theorem C4_market_order_status_witness :
    (match_market_order
      ⟨1, 1, 7, .buy, 0, 1, 0, 1, .pending, 0, 1, none⟩
      ⟨[], []⟩).1.status = .partially_filled ∧
    (match_market_order
      ⟨1, 1, 7, .buy, 0, 1, 0, 1, .pending, 0, 1, none⟩
      ⟨[], []⟩).2.1.bids = [] := by
  have h := C4_market_order_status
    ⟨1, 1, 7, .buy, 0, 1, 0, 1, .pending, 0, 1, none⟩ ⟨[], []⟩
    (by intro o ho; simp at ho)
  exact ⟨h.2.2.1 rfl (by norm_num), h.2.2.2.1 rfl⟩

/-- Every trade the FIFO limit loop emits matches a book order of the
input list, at that order's price, referencing its id. -/
theorem fifo_loop_trades (bos : List Order) : ∀ (taker : Order) (rem : ℚ),
    ∀ t ∈ (fifo_loop taker bos rem).2.2.2, ∃ m ∈ bos,
      t.maker_order_id = m.id ∧ t.price = m.price := by
  induction bos with
  | nil =>
    intro taker rem t ht
    simp [fifo_loop] at ht
  | cons bo rest ih =>
    intro taker rem t ht
    by_cases h : 0 < rem
    · by_cases hc : price_compat taker.side taker.price bo.price = true
      · simp only [fifo_loop, if_pos h, if_pos hc] at ht
        rcases List.mem_cons.mp ht with rfl | hmem
        · exact ⟨bo, List.mem_cons_self _ _, by simp, by simp⟩
        · obtain ⟨m, hm, h1, h2⟩ := ih _ _ t hmem
          exact ⟨m, List.mem_cons_of_mem _ hm, h1, h2⟩
      · simp [fifo_loop, if_pos h, if_neg hc] at ht
    · simp [fifo_loop, if_neg h] at ht

/-- Every trade of the full-fill pro-rata branch matches a level order,
at the level price, referencing its id. -/
theorem fill_all_level_trades (level : List Order) :
    ∀ (taker : Order) (bp rem : ℚ),
    ∀ t ∈ (fill_all_level taker bp level rem).2.2.2, ∃ m ∈ level,
      t.maker_order_id = m.id ∧ t.price = bp := by
  induction level with
  | nil =>
    intro taker bp rem t ht
    simp [fill_all_level] at ht
  | cons bo rest ih =>
    intro taker bp rem t ht
    simp only [fill_all_level] at ht
    rcases List.mem_cons.mp ht with rfl | hmem
    · exact ⟨bo, List.mem_cons_self _ _, by simp, by simp⟩
    · obtain ⟨m, hm, h1, h2⟩ := ih _ _ _ t hmem
      exact ⟨m, List.mem_cons_of_mem _ hm, h1, h2⟩

/-- Every trade of the allocation loop matches the order of one
allocation pair, at the level price, referencing its id. -/
theorem pro_rata_exec_trades (pairs : List (Order × ℚ)) :
    ∀ (taker : Order) (bp rem : ℚ),
    ∀ t ∈ (pro_rata_exec taker bp pairs rem).2.2.2, ∃ pr ∈ pairs,
      t.maker_order_id = pr.1.id ∧ t.price = bp := by
  induction pairs with
  | nil =>
    intro taker bp rem t ht
    simp [pro_rata_exec] at ht
  | cons pr0 rest ih =>
    intro taker bp rem t ht
    obtain ⟨bo, alloc⟩ := pr0
    by_cases h : 0 < alloc ∧ 0 < rem
    · by_cases hq : 0 < min (min alloc rem) bo.remaining_quantity
      · simp only [pro_rata_exec, if_pos h, if_pos hq] at ht
        rcases List.mem_cons.mp ht with rfl | hmem
        · exact ⟨(bo, alloc), List.mem_cons_self _ _, by simp, by simp⟩
        · obtain ⟨pr, hm, h1, h2⟩ := ih _ _ _ t hmem
          exact ⟨pr, List.mem_cons_of_mem _ hm, h1, h2⟩
      · simp only [pro_rata_exec, if_pos h, if_neg hq] at ht
        obtain ⟨pr, hm, h1, h2⟩ := ih _ _ _ t ht
        exact ⟨pr, List.mem_cons_of_mem _ hm, h1, h2⟩
    · simp only [pro_rata_exec, if_neg h] at ht
      obtain ⟨pr, hm, h1, h2⟩ := ih _ _ _ t ht
      exact ⟨pr, List.mem_cons_of_mem _ hm, h1, h2⟩

/-- Every order collected by collect_level is in the input list and has
the level price. -/
theorem collect_level_mem (s : Side) (tp bp : ℚ) : ∀ (l : List Order),
    ∀ o ∈ collect_level s tp bp l, o ∈ l ∧ o.price = bp := by
  intro l
  induction l with
  | nil =>
    intro o ho
    simp [collect_level] at ho
  | cons bo rest ih =>
    intro o ho
    by_cases hc : price_compat s tp bo.price = true
    · by_cases hp : bo.price = bp
      · simp only [collect_level, if_pos hc, if_pos hp] at ho
        rcases List.mem_cons.mp ho with rfl | hmem
        · exact ⟨List.mem_cons_self _ _, hp⟩
        · obtain ⟨h1, h2⟩ := ih o hmem
          exact ⟨List.mem_cons_of_mem _ h1, h2⟩
      · simp [collect_level, if_pos hc, if_neg hp] at ho
    · simp [collect_level, if_neg hc] at ho

/-- When compatible_orders is nonempty, each member is in the input list
and carries the price of the level head. -/
theorem compatible_orders_spec (s : Side) (tp : ℚ) (l : List Order)
    (hd : Order) (tl : List Order)
    (hlev : compatible_orders s tp l = hd :: tl) :
    ∀ o ∈ hd :: tl, o ∈ l ∧ o.price = hd.price := by
  cases l with
  | nil => simp [compatible_orders] at hlev
  | cons bo rest =>
    by_cases hc : price_compat s tp bo.price = true
    · simp only [compatible_orders, if_pos hc] at hlev
      obtain ⟨rfl, rfl⟩ : bo = hd ∧ collect_level s tp bo.price rest = tl := by
        exact ⟨(List.cons.injEq _ _ _ _).mp hlev |>.1,
          (List.cons.injEq _ _ _ _).mp hlev |>.2⟩
      intro o ho
      rcases List.mem_cons.mp ho with rfl | hmem
      · exact ⟨List.mem_cons_self _ _, rfl⟩
      · obtain ⟨h1, h2⟩ := collect_level_mem s tp bo.price rest o hmem
        exact ⟨List.mem_cons_of_mem _ h1, h2⟩
    · simp [compatible_orders, if_neg hc] at hlev

/-- C5: every Trade record produced by matching has price equal to the
limit price of the maker (resting) order it references, for market
takers and for limit takers under both FIFO and PRO_RATA. -/
theorem C5_trade_price_is_maker (algo : Algo) (taker : Order) (book : OrderBook) :
    (∀ t ∈ (match_market_order taker book).2.2,
      ∃ m ∈ opposite_side taker.side book,
        t.maker_order_id = m.id ∧ t.price = m.price) ∧
    (∀ t ∈ (match_limit_order_fifo algo taker book).2.2,
      ∃ m ∈ opposite_side taker.side book,
        t.maker_order_id = m.id ∧ t.price = m.price) ∧
    (∀ t ∈ (match_limit_order_pro_rata algo taker book).2.2,
      ∃ m ∈ opposite_side taker.side book,
        t.maker_order_id = m.id ∧ t.price = m.price) := by
  refine ⟨?_, ?_, ?_⟩
  · intro t ht
    simp only [match_market_order] at ht
    exact market_loop_trades _ _ _ t ht
  · intro t ht
    simp only [match_limit_order_fifo] at ht
    by_cases h : 0 < (fifo_loop taker (opposite_side taker.side book)
        taker.remaining_quantity).2.2.1
    · rw [if_pos h] at ht
      exact fifo_loop_trades _ _ _ t ht
    · rw [if_neg h] at ht
      exact fifo_loop_trades _ _ _ t ht
  · intro t ht
    rcases hlev : compatible_orders taker.side taker.price
        (opposite_side taker.side book) with _ | ⟨bo0, tl⟩
    · simp only [match_limit_order_pro_rata, hlev] at ht
      simp at ht
    · simp only [match_limit_order_pro_rata, hlev] at ht
      by_cases hQL : ((bo0 :: tl).map Order.remaining_quantity).sum ≤
          taker.remaining_quantity
      · rw [if_pos hQL] at ht
        by_cases hrem : 0 < (fill_all_level taker bo0.price (bo0 :: tl)
            taker.remaining_quantity).2.2.1
        · rw [if_pos hrem] at ht
          obtain ⟨m, hm, h1, h2⟩ := fill_all_level_trades _ _ _ _ t ht
          obtain ⟨hmem, hp⟩ := compatible_orders_spec _ _ _ _ _ hlev m hm
          exact ⟨m, hmem, h1, by rw [h2, hp]⟩
        · rw [if_neg hrem] at ht
          obtain ⟨m, hm, h1, h2⟩ := fill_all_level_trades _ _ _ _ t ht
          obtain ⟨hmem, hp⟩ := compatible_orders_spec _ _ _ _ _ hlev m hm
          exact ⟨m, hmem, h1, by rw [h2, hp]⟩
      · rw [if_neg hQL] at ht
        by_cases hrem : 0 < (pro_rata_exec taker bo0.price
            ((bo0 :: tl).map (fun bo => (bo, dec_mul taker.remaining_quantity
              (dec_div bo.remaining_quantity
                ((bo0 :: tl).map Order.remaining_quantity).sum))))
            taker.remaining_quantity).2.2.1
        · rw [if_pos hrem] at ht
          obtain ⟨pr, hm, h1, h2⟩ := pro_rata_exec_trades _ _ _ _ t ht
          obtain ⟨bo, hbo, heq⟩ := List.mem_map.mp hm
          obtain ⟨hmem, hp⟩ := compatible_orders_spec _ _ _ _ _ hlev bo hbo
          refine ⟨bo, hmem, ?_, ?_⟩
          · rw [h1, ← heq]
          · rw [h2, hp]
        · rw [if_neg hrem] at ht
          obtain ⟨pr, hm, h1, h2⟩ := pro_rata_exec_trades _ _ _ _ t ht
          obtain ⟨bo, hbo, heq⟩ := List.mem_map.mp hm
          obtain ⟨hmem, hp⟩ := compatible_orders_spec _ _ _ _ _ hlev bo hbo
          refine ⟨bo, hmem, ?_, ?_⟩
          · rw [h1, ← heq]
          · rw [h2, hp]

/-- C5 witness: the single trade of a FIFO limit match of 1 at 50000
references the resting maker and carries its price 50000. -/
theorem C5_trade_price_is_maker_witness :
    ∃ m ∈ opposite_side Side.buy
      ⟨[], [⟨2, 2, 8, .sell, 50000, 1, 0, 1, .open_, 0, 0, none⟩]⟩,
      (Trade.mk 2 1 50000 1 50 50).maker_order_id = m.id ∧
      (Trade.mk 2 1 50000 1 50 50).price = m.price := by
  refine (C5_trade_price_is_maker .FIFO
    ⟨1, 1, 7, .buy, 50000, 1, 0, 1, .pending, 0, 1, none⟩
    ⟨[], [⟨2, 2, 8, .sell, 50000, 1, 0, 1, .open_, 0, 0, none⟩]⟩).2.1
    ⟨2, 1, 50000, 1, 50, 50⟩ ?_
  norm_num [match_limit_order_fifo, fifo_loop, opposite_side, price_compat,
    execute_trade_orders, Order.update_fill, Order.is_filled, fee_rate,
    min_def]

/-- collect_level keeps the whole list when every element is compatible
and at the level price. -/
theorem collect_level_all (s : Side) (tp bp : ℚ) : ∀ (l : List Order),
    (∀ o ∈ l, price_compat s tp o.price = true ∧ o.price = bp) →
    collect_level s tp bp l = l := by
  intro l
  induction l with
  | nil => intro _; rfl
  | cons bo rest ih =>
    intro h
    have h0 := h bo (List.mem_cons_self _ _)
    simp only [collect_level, if_pos h0.1, if_pos h0.2]
    rw [ih (fun o ho => h o (List.mem_cons_of_mem _ ho))]

/-- compatible_orders keeps the whole list when every element is
compatible and at the head price. -/
theorem compatible_orders_all (s : Side) (tp : ℚ) (bo : Order)
    (rest : List Order)
    (hcompat : ∀ o ∈ bo :: rest, price_compat s tp o.price = true)
    (hsame : ∀ o ∈ bo :: rest, o.price = bo.price) :
    compatible_orders s tp (bo :: rest) = bo :: rest := by
  simp only [compatible_orders, if_pos (hcompat bo (List.mem_cons_self _ _))]
  rw [collect_level_all s tp bo.price rest (fun o ho =>
    ⟨hcompat o (List.mem_cons_of_mem _ ho),
      hsame o (List.mem_cons_of_mem _ ho)⟩)]

/-- Round half to even fixes every integer. -/
theorem rhe_intCast (n : ℤ) : rhe (n : ℚ) = n := by
  unfold rhe
  rw [Int.floor_intCast]
  rw [if_pos (by norm_num)]

/-- The base-10 logarithm of a positive rational bracketed by two
adjacent powers of ten. -/
theorem int_log10_eq (x : ℚ) (d : ℤ) (hx : 0 < x)
    (h1 : ((10 : ℕ) : ℚ) ^ d ≤ x) (h2 : x < ((10 : ℕ) : ℚ) ^ (d + 1)) :
    Int.log 10 x = d :=
  le_antisymm
    (Int.lt_add_one_iff.mp ((Int.lt_zpow_iff_log_lt (by norm_num) hx).mp h2))
    ((Int.zpow_le_iff_le_log (by norm_num) hx).mp h1)

/-- The context rounding fixes a positive value that already sits on the
28-significant-digit grid: leading digit at power d, an integer multiple
of ten to the d - 27. -/
theorem dec_round_eq_self (x : ℚ) (d n : ℤ) (hx : 0 < x)
    (h1 : ((10 : ℕ) : ℚ) ^ d ≤ x) (h2 : x < ((10 : ℕ) : ℚ) ^ (d + 1))
    (hn : x = (n : ℚ) * (10 : ℚ) ^ (d - 27)) :
    dec_round x = x := by
  have hlog : Int.log 10 x = d := int_log10_eq x d hx h1 h2
  have habs : |x| = x := abs_of_pos hx
  have h10 : (10 : ℚ) ^ (d - 27) ≠ 0 := zpow_ne_zero _ (by norm_num)
  unfold dec_round
  rw [if_neg (ne_of_gt hx), habs, hlog, hn,
    mul_div_cancel_right₀ _ h10, rhe_intCast]

/-- The context rounding of a positive value whose scaled fraction is
below one half rounds down to the floor on the 28-significant-digit
grid. -/
theorem dec_round_eq (x : ℚ) (d n : ℤ) (hx : 0 < x)
    (h1 : ((10 : ℕ) : ℚ) ^ d ≤ x) (h2 : x < ((10 : ℕ) : ℚ) ^ (d + 1))
    (hf : ⌊x / (10 : ℚ) ^ (d - 27)⌋ = n)
    (hlt : x / (10 : ℚ) ^ (d - 27) - (n : ℚ) < 1 / 2) :
    dec_round x = (n : ℚ) * (10 : ℚ) ^ (d - 27) := by
  have hlog : Int.log 10 x = d := int_log10_eq x d hx h1 h2
  have habs : |x| = x := abs_of_pos hx
  unfold dec_round rhe
  rw [if_neg (ne_of_gt hx), habs, hlog, hf, if_pos hlt]

/-- When the remaining quantity equals the sum of the allocations and
every allocation is positive and within its order remainder, the
allocation loop fills exactly the allocations and ends with zero
remaining quantity. -/
theorem pro_rata_exec_exact (pairs : List (Order × ℚ)) :
    ∀ (taker : Order) (bp : ℚ),
    (∀ pr ∈ pairs, 0 < pr.2 ∧ pr.2 ≤ pr.1.remaining_quantity) →
    ((pro_rata_exec taker bp pairs
        ((pairs.map Prod.snd).sum)).2.2.2.map Trade.quantity
      = pairs.map Prod.snd) ∧
    (pro_rata_exec taker bp pairs ((pairs.map Prod.snd).sum)).2.2.1 = 0 := by
  induction pairs with
  | nil =>
    intro taker bp _
    simp [pro_rata_exec]
  | cons pr0 rest ih =>
    intro taker bp h
    obtain ⟨bo, a⟩ := pr0
    have ha : 0 < a := (h _ (List.mem_cons_self _ _)).1
    have har : a ≤ bo.remaining_quantity := (h _ (List.mem_cons_self _ _)).2
    have hrest : ∀ pr ∈ rest, 0 < pr.2 ∧ pr.2 ≤ pr.1.remaining_quantity :=
      fun pr hpr => h pr (List.mem_cons_of_mem _ hpr)
    have hs0 : 0 ≤ (rest.map Prod.snd).sum := by
      apply List.sum_nonneg
      intro x hx
      obtain ⟨pr, hpr, rfl⟩ := List.mem_map.mp hx
      exact le_of_lt (hrest pr hpr).1
    have hsum : ((((bo, a) : Order × ℚ) :: rest).map Prod.snd).sum
        = a + (rest.map Prod.snd).sum := by simp
    rw [hsum]
    have hrem_pos : (0 : ℚ) < a + (rest.map Prod.snd).sum := by linarith
    have hmin1 : min a (a + (rest.map Prod.snd).sum) = a :=
      min_eq_left (by linarith)
    have hminq : min (min a (a + (rest.map Prod.snd).sum))
        bo.remaining_quantity = a := by
      rw [hmin1, min_eq_left har]
    simp only [pro_rata_exec]
    rw [if_pos ⟨ha, hrem_pos⟩, hminq, if_pos ha]
    have hdrop : a + (rest.map Prod.snd).sum - a = (rest.map Prod.snd).sum := by
      ring
    rw [hdrop]
    have hih := ih (execute_trade_orders taker bo a bp).1 bp hrest
    refine ⟨?_, hih.2⟩
    simp only [List.map_cons]
    rw [hih.1]
    simp

/-- C3 counterexample: for resting quantities 1 and 511 at one price and
incoming quantity 1 under pro-rata, the source fills the first order with
exactly 1/512 = 0.001953125 (both shares sit on the 28-significant-digit
grid, so the context rounding fixes them), while the claimed
floor-to-scale-8 share is 0.00195312 and the claimed share plus one FIFO
residual increment is 0.00195313; the source applies no scale-8
truncation and no residual pass. -/
theorem C3_counterexample :
    (match_limit_order_pro_rata .PRO_RATA
      ⟨3, 3, 7, .buy, 50000, 1, 0, 1, .pending, 0, 3, none⟩
      ⟨[], [⟨1, 1, 8, .sell, 50000, 1, 0, 1, .open_, 0, 1, none⟩,
            ⟨2, 2, 9, .sell, 50000, 511, 0, 511, .open_, 0, 2, none⟩]⟩).2.2.map
      Trade.quantity = [1 / 512, 511 / 512] ∧
    floor_scale8 (1 * (1 / 512)) = 195312 / 10 ^ 8 ∧
    (1 / 512 : ℚ) ≠ 195312 / 10 ^ 8 ∧
    (1 / 512 : ℚ) ≠ 195312 / 10 ^ 8 + 1 / 10 ^ 8 := by
  have er1 : dec_round (1 / 512 : ℚ) = 1 / 512 :=
    dec_round_eq_self _ (-3) (1953125 * 10 ^ 21) (by norm_num) (by norm_num)
      (by norm_num) (by norm_num)
  have er2 : dec_round (511 / 512 : ℚ) = 511 / 512 :=
    dec_round_eq_self _ (-1) (998046875 * 10 ^ 19) (by norm_num) (by norm_num)
      (by norm_num) (by norm_num)
  refine ⟨?_, ?_, by norm_num, by norm_num⟩
  · norm_num [match_limit_order_pro_rata, compatible_orders, collect_level,
      price_compat, opposite_side, pro_rata_exec, execute_trade_orders,
      Order.update_fill, Order.is_filled, fee_rate, min_def,
      dec_div, dec_mul, er1, er2]
  · unfold floor_scale8
    rw [show ((1 : ℚ) * (1 / 512) * 10 ^ 8) = ((195312 : ℤ) : ℚ) + 1 / 2 by
      norm_num]
    rw [Int.floor_int_add]
    rw [show ⌊(1 / 2 : ℚ)⌋ = 0 from Int.floor_eq_zero_iff.mpr
      (by constructor <;> norm_num)]
    norm_num

/-- C3 amended: at a single compatible price level with total remainder
L and incoming remaining quantity Q with 0 < Q < L, the shares are
Q times the quotient r.remaining over L under the 28-significant-digit
Decimal context rounding, with no truncation to scale 8 and no FIFO
residual pass; whenever every share is exact under that rounding (the
hexact hypothesis, which holds in the literal scenario), each resting
order r is filled with exactly Q times r.remaining over L, each fill is
within the order remainder, and the taker ends filled. -/
theorem C3_pro_rata_allocation (algo : Algo) (taker : Order)
    (book : OrderBook) (l : List Order)
    (hopp : opposite_side taker.side book = l)
    (hne : l ≠ [])
    (hcompat : ∀ o ∈ l, price_compat taker.side taker.price o.price = true)
    (hsame : ∀ o ∈ l, ∀ o2 ∈ l, o.price = o2.price)
    (hpos : ∀ o ∈ l, 0 < o.remaining_quantity)
    (hQpos : 0 < taker.remaining_quantity)
    (hQL : taker.remaining_quantity < (l.map Order.remaining_quantity).sum)
    (hexact : ∀ o ∈ l,
      dec_div o.remaining_quantity ((l.map Order.remaining_quantity).sum)
        = o.remaining_quantity / (l.map Order.remaining_quantity).sum ∧
      dec_mul taker.remaining_quantity
          (o.remaining_quantity / (l.map Order.remaining_quantity).sum)
        = taker.remaining_quantity *
          (o.remaining_quantity / (l.map Order.remaining_quantity).sum)) :
    ((match_limit_order_pro_rata algo taker book).2.2.map Trade.quantity
      = l.map (fun bo => taker.remaining_quantity *
          (bo.remaining_quantity / (l.map Order.remaining_quantity).sum))) ∧
    (∀ bo ∈ l, taker.remaining_quantity *
        (bo.remaining_quantity / (l.map Order.remaining_quantity).sum)
      ≤ bo.remaining_quantity) ∧
    (match_limit_order_pro_rata algo taker book).1.status = .filled := by
  obtain ⟨bo0, tl, rfl⟩ : ∃ bo0 tl, l = bo0 :: tl := by
    cases l with
    | nil => exact absurd rfl hne
    | cons a b => exact ⟨a, b, rfl⟩
  have htotal_pos : 0 < ((bo0 :: tl).map Order.remaining_quantity).sum := by
    apply List.sum_pos
    · intro x hx
      obtain ⟨o, ho, rfl⟩ := List.mem_map.mp hx
      exact hpos o ho
    · simp
  have hbounds : ∀ pr ∈ (bo0 :: tl).map (fun bo => (bo,
      taker.remaining_quantity * (bo.remaining_quantity /
        ((bo0 :: tl).map Order.remaining_quantity).sum))),
      0 < pr.2 ∧ pr.2 ≤ pr.1.remaining_quantity := by
    intro pr hpr
    obtain ⟨bo, hbo, rfl⟩ := List.mem_map.mp hpr
    have hr := hpos bo hbo
    have h1 : taker.remaining_quantity /
        ((bo0 :: tl).map Order.remaining_quantity).sum ≤ 1 :=
      (div_le_one htotal_pos).mpr (le_of_lt hQL)
    refine ⟨mul_pos hQpos (div_pos hr htotal_pos), ?_⟩
    calc taker.remaining_quantity * (bo.remaining_quantity /
          ((bo0 :: tl).map Order.remaining_quantity).sum)
        = bo.remaining_quantity * (taker.remaining_quantity /
          ((bo0 :: tl).map Order.remaining_quantity).sum) := by ring
      _ ≤ bo.remaining_quantity * 1 :=
          mul_le_mul_of_nonneg_left h1 (le_of_lt hr)
      _ = bo.remaining_quantity := mul_one _
  have hQsum : ((((bo0 :: tl)).map (fun bo => (bo,
      taker.remaining_quantity * (bo.remaining_quantity /
        ((bo0 :: tl).map Order.remaining_quantity).sum)))).map Prod.snd).sum
      = taker.remaining_quantity := by
    rw [List.map_map]
    have hc : (Prod.snd ∘ fun bo : Order => (bo,
        taker.remaining_quantity * (bo.remaining_quantity /
          ((bo0 :: tl).map Order.remaining_quantity).sum)))
        = fun bo : Order => (taker.remaining_quantity /
            ((bo0 :: tl).map Order.remaining_quantity).sum) *
          bo.remaining_quantity := by
      funext bo
      show taker.remaining_quantity * (bo.remaining_quantity /
        ((bo0 :: tl).map Order.remaining_quantity).sum) = _
      ring
    rw [hc, List.sum_map_mul_left]
    exact div_mul_cancel₀ _ (ne_of_gt htotal_pos)
  have hlev : compatible_orders taker.side taker.price
      (opposite_side taker.side book) = bo0 :: tl := by
    rw [hopp]
    exact compatible_orders_all _ _ _ _ hcompat
      (fun o ho => hsame o ho bo0 (List.mem_cons_self _ _))
  have hnotle : ¬ (((bo0 :: tl).map Order.remaining_quantity).sum ≤
      taker.remaining_quantity) := not_le.mpr hQL
  have hexec := pro_rata_exec_exact
    ((bo0 :: tl).map (fun bo => (bo,
      taker.remaining_quantity * (bo.remaining_quantity /
        ((bo0 :: tl).map Order.remaining_quantity).sum))))
    taker bo0.price hbounds
  rw [hQsum] at hexec
  have hmapeq : (bo0 :: tl).map (fun bo => (bo,
      dec_mul taker.remaining_quantity (dec_div bo.remaining_quantity
        (((bo0 :: tl)).map Order.remaining_quantity).sum)))
      = (bo0 :: tl).map (fun bo => (bo,
        taker.remaining_quantity * (bo.remaining_quantity /
          (((bo0 :: tl)).map Order.remaining_quantity).sum))) := by
    apply List.map_congr_left
    intro bo hbo
    rw [(hexact bo hbo).1, (hexact bo hbo).2]
  simp only [match_limit_order_pro_rata, hlev]
  rw [hmapeq, if_neg hnotle, hexec.2, if_neg (lt_irrefl (0 : ℚ))]
  refine ⟨?_, ?_, rfl⟩
  · rw [hexec.1, List.map_map]
    rfl
  · intro bo hbo
    exact (hbounds (bo, taker.remaining_quantity * (bo.remaining_quantity /
        ((bo0 :: tl).map Order.remaining_quantity).sum))
      (List.mem_map.mpr ⟨bo, hbo, rfl⟩)).2

/-- C3 witness: resting sells of 0.5, 1.0, 0.5 at 50000 against an
incoming buy of 1.0 at 50000 under pro-rata fill exactly 0.25, 0.50,
0.25 and the buyer ends filled. -/
theorem C3_pro_rata_allocation_witness :
    ((match_limit_order_pro_rata .PRO_RATA
      ⟨4, 4, 7, .buy, 50000, 1, 0, 1, .pending, 0, 4, none⟩
      ⟨[], [⟨1, 1, 8, .sell, 50000, 1 / 2, 0, 1 / 2, .open_, 0, 1, none⟩,
            ⟨2, 2, 8, .sell, 50000, 1, 0, 1, .open_, 0, 2, none⟩,
            ⟨3, 3, 8, .sell, 50000, 1 / 2, 0, 1 / 2, .open_, 0, 3, none⟩]⟩).2.2.map
      Trade.quantity = [1 / 4, 1 / 2, 1 / 4]) ∧
    (match_limit_order_pro_rata .PRO_RATA
      ⟨4, 4, 7, .buy, 50000, 1, 0, 1, .pending, 0, 4, none⟩
      ⟨[], [⟨1, 1, 8, .sell, 50000, 1 / 2, 0, 1 / 2, .open_, 0, 1, none⟩,
            ⟨2, 2, 8, .sell, 50000, 1, 0, 1, .open_, 0, 2, none⟩,
            ⟨3, 3, 8, .sell, 50000, 1 / 2, 0, 1 / 2, .open_, 0, 3, none⟩]⟩).1.status
      = .filled := by
  have h := C3_pro_rata_allocation .PRO_RATA
    ⟨4, 4, 7, .buy, 50000, 1, 0, 1, .pending, 0, 4, none⟩
    ⟨[], [⟨1, 1, 8, .sell, 50000, 1 / 2, 0, 1 / 2, .open_, 0, 1, none⟩,
          ⟨2, 2, 8, .sell, 50000, 1, 0, 1, .open_, 0, 2, none⟩,
          ⟨3, 3, 8, .sell, 50000, 1 / 2, 0, 1 / 2, .open_, 0, 3, none⟩]⟩
    [⟨1, 1, 8, .sell, 50000, 1 / 2, 0, 1 / 2, .open_, 0, 1, none⟩,
     ⟨2, 2, 8, .sell, 50000, 1, 0, 1, .open_, 0, 2, none⟩,
     ⟨3, 3, 8, .sell, 50000, 1 / 2, 0, 1 / 2, .open_, 0, 3, none⟩]
    rfl (by simp)
    (by intro o ho; fin_cases ho <;> norm_num [price_compat])
    (by intro o ho o2 ho2; fin_cases ho <;> fin_cases ho2 <;> rfl)
    (by intro o ho; fin_cases ho <;> norm_num)
    (by norm_num)
    (by norm_num)
    (by
      have er14 : dec_round (1 / 4 : ℚ) = 1 / 4 :=
        dec_round_eq_self _ (-1) (25 * 10 ^ 26) (by norm_num) (by norm_num)
          (by norm_num) (by norm_num)
      have er12 : dec_round (1 / 2 : ℚ) = 1 / 2 :=
        dec_round_eq_self _ (-1) (5 * 10 ^ 27) (by norm_num) (by norm_num)
          (by norm_num) (by norm_num)
      intro o ho
      fin_cases ho <;>
        exact ⟨by norm_num [dec_div, er14, er12],
          by norm_num [dec_mul, er14, er12]⟩)
  refine ⟨?_, h.2.2⟩
  rw [h.1]
  norm_num

/-- The embedded pro-rata matcher reproduces the Decimal-context
behavior of the source on a level whose shares are inexact: for resting
remainders 1, 1, 1 and incoming quantity 1 each fill is the 28-digit
rounding of one third, and the taker keeps the rounding residual,
resting partially_filled. -/
theorem pro_rata_context_rounding_demo :
    ((match_limit_order_pro_rata .PRO_RATA
      ⟨4, 4, 7, .buy, 50000, 1, 0, 1, .pending, 0, 4, none⟩
      ⟨[], [⟨1, 1, 8, .sell, 50000, 1, 0, 1, .open_, 0, 1, none⟩,
            ⟨2, 2, 8, .sell, 50000, 1, 0, 1, .open_, 0, 2, none⟩,
            ⟨3, 3, 8, .sell, 50000, 1, 0, 1, .open_, 0, 3, none⟩]⟩).2.2.map
      Trade.quantity
      = [3333333333333333333333333333 / 10 ^ 28,
         3333333333333333333333333333 / 10 ^ 28,
         3333333333333333333333333333 / 10 ^ 28]) ∧
    (match_limit_order_pro_rata .PRO_RATA
      ⟨4, 4, 7, .buy, 50000, 1, 0, 1, .pending, 0, 4, none⟩
      ⟨[], [⟨1, 1, 8, .sell, 50000, 1, 0, 1, .open_, 0, 1, none⟩,
            ⟨2, 2, 8, .sell, 50000, 1, 0, 1, .open_, 0, 2, none⟩,
            ⟨3, 3, 8, .sell, 50000, 1, 0, 1, .open_, 0, 3, none⟩]⟩).1.status
      = .partially_filled := by
  have ea : dec_round ((1 : ℚ) / 3)
      = 3333333333333333333333333333 / 10000000000000000000000000000 := by
    rw [dec_round_eq ((1 : ℚ) / 3) (-1) 3333333333333333333333333333
      (by norm_num) (by norm_num) (by norm_num)
      (Int.floor_eq_iff.mpr (by constructor <;> norm_num)) (by norm_num)]
    norm_num
  have eb : dec_round ((3333333333333333333333333333 : ℚ)
        / 10000000000000000000000000000)
      = 3333333333333333333333333333 / 10000000000000000000000000000 :=
    dec_round_eq_self _ (-1) 3333333333333333333333333333 (by norm_num)
      (by norm_num) (by norm_num) (by norm_num)
  constructor <;>
    norm_num [match_limit_order_pro_rata, compatible_orders, collect_level,
      price_compat, opposite_side, pro_rata_exec, execute_trade_orders,
      Order.update_fill, Order.is_filled, fee_rate, min_def,
      dec_div, dec_mul, ea, eb]

/-- C6 counterexample: under the default FIFO configuration, resting a
sell at 50000, then a sell at 49000 (appended after it), then a buy at
49500 leaves the book crossed: the FIFO walk breaks at the 50000 ask
without seeing the 49000 ask, and the buy rests at 49500 >= 49000. -/
theorem C6_counterexample :
    (match_limit_order .FIFO
      ⟨3, 3, 7, .buy, 49500, 1, 0, 1, .pending, 0, 3, none⟩
      (match_limit_order .FIFO
        ⟨2, 2, 8, .sell, 49000, 1, 0, 1, .pending, 0, 2, none⟩
        (match_limit_order .FIFO
          ⟨1, 1, 8, .sell, 50000, 1, 0, 1, .pending, 0, 1, none⟩
          ⟨[], []⟩).2.1).2.1).2.1 =
      ⟨[⟨3, 3, 7, .buy, 49500, 1, 0, 1, .open_, 0, 3, none⟩],
       [⟨1, 1, 8, .sell, 50000, 1, 0, 1, .open_, 0, 1, none⟩,
        ⟨2, 2, 8, .sell, 49000, 1, 0, 1, .open_, 0, 2, none⟩]⟩ ∧
    (∃ bid ∈ [(⟨3, 3, 7, .buy, 49500, 1, 0, 1, .open_, 0, 3, none⟩ : Order)],
      ∃ ask ∈ [(⟨1, 1, 8, .sell, 50000, 1, 0, 1, .open_, 0, 1, none⟩ : Order),
               ⟨2, 2, 8, .sell, 49000, 1, 0, 1, .open_, 0, 2, none⟩],
        ask.price ≤ bid.price) := by
  constructor
  · norm_num [match_limit_order, match_limit_order_fifo, fifo_loop,
      opposite_side, price_compat, add_to_orderbook]
  · refine ⟨⟨3, 3, 7, .buy, 49500, 1, 0, 1, .open_, 0, 3, none⟩,
      List.mem_cons_self _ _,
      ⟨2, 2, 8, .sell, 49000, 1, 0, 1, .open_, 0, 2, none⟩, ?_, by norm_num⟩
    exact List.mem_cons_of_mem _ (List.mem_cons_self _ _)

/-- insert_bid keeps the bid side in price-time priority order and places
the strictly-later new order after every resting order of equal or
better price, before every strictly worse-priced one. -/
theorem insert_bid_sorted (o : Order) : ∀ (l : List Order),
    List.Pairwise bid_priority l →
    (∀ e ∈ l, e.created_at < o.created_at) →
    List.Pairwise bid_priority (insert_bid o l) ∧
    ∃ l1 l2, insert_bid o l = l1 ++ o :: l2 ∧ l = l1 ++ l2 ∧
      (∀ e ∈ l1, o.price ≤ e.price) ∧ (∀ e ∈ l2, e.price < o.price) := by
  intro l
  induction l with
  | nil =>
    intro _ _
    refine ⟨List.pairwise_singleton _ _, [], [], rfl, rfl, ?_, ?_⟩ <;> simp
  | cons e rest ih =>
    intro hs hc
    have hs1 : ∀ x ∈ rest, bid_priority e x := (List.pairwise_cons.mp hs).1
    have hs2 : List.Pairwise bid_priority rest := (List.pairwise_cons.mp hs).2
    have hce : e.created_at < o.created_at := hc e (List.mem_cons_self _ _)
    by_cases h : e.price < o.price ∨ (o.price = e.price ∧ o.created_at < e.created_at)
    · have hep : e.price < o.price := by
        rcases h with h | ⟨_, habs⟩
        · exact h
        · exact absurd habs (by omega)
      simp only [insert_bid, if_pos h]
      constructor
      · refine List.pairwise_cons.mpr ⟨?_, hs⟩
        intro x hx
        rcases List.mem_cons.mp hx with rfl | hxr
        · exact Or.inl hep
        · have := hs1 x hxr
          left
          rcases this with h2 | ⟨h2, _⟩
          · linarith
          · rw [h2] at hep; exact hep
      · refine ⟨[], e :: rest, rfl, rfl, by simp, ?_⟩
        intro x hx
        rcases List.mem_cons.mp hx with rfl | hxr
        · exact hep
        · rcases hs1 x hxr with h2 | ⟨h2, _⟩
          · linarith
          · rw [h2] at hep; exact hep
    · have hop : o.price ≤ e.price := by
        push_neg at h
        exact h.1
      simp only [insert_bid, if_neg h]
      obtain ⟨hsorted, l1, l2, heq, hsplit, h1, h2⟩ :=
        ih hs2 (fun x hx => hc x (List.mem_cons_of_mem _ hx))
      constructor
      · refine List.pairwise_cons.mpr ⟨?_, hsorted⟩
        intro x hx
        rw [heq] at hx
        rcases List.mem_append.mp hx with hx1 | hx2
        · exact hs1 x (hsplit ▸ List.mem_append.mpr (Or.inl hx1))
        · rcases List.mem_cons.mp hx2 with rfl | hx3
          · rcases lt_or_eq_of_le hop with hlt | heqp
            · exact Or.inl hlt
            · exact Or.inr ⟨heqp.symm, le_of_lt hce⟩
          · exact hs1 x (hsplit ▸ List.mem_append.mpr (Or.inr hx3))
      · refine ⟨e :: l1, l2, by rw [heq, List.cons_append],
          by rw [hsplit, List.cons_append], ?_, h2⟩
        intro x hx
        rcases List.mem_cons.mp hx with rfl | hx1
        · exact hop
        · exact h1 x hx1

/-- insert_ask keeps the ask side in price-time priority order and places
the strictly-later new order after every resting order of equal or
better price, before every strictly worse-priced one. -/
theorem insert_ask_sorted (o : Order) : ∀ (l : List Order),
    List.Pairwise ask_priority l →
    (∀ e ∈ l, e.created_at < o.created_at) →
    List.Pairwise ask_priority (insert_ask o l) ∧
    ∃ l1 l2, insert_ask o l = l1 ++ o :: l2 ∧ l = l1 ++ l2 ∧
      (∀ e ∈ l1, e.price ≤ o.price) ∧ (∀ e ∈ l2, o.price < e.price) := by
  intro l
  induction l with
  | nil =>
    intro _ _
    refine ⟨List.pairwise_singleton _ _, [], [], rfl, rfl, ?_, ?_⟩ <;> simp
  | cons e rest ih =>
    intro hs hc
    have hs1 : ∀ x ∈ rest, ask_priority e x := (List.pairwise_cons.mp hs).1
    have hs2 : List.Pairwise ask_priority rest := (List.pairwise_cons.mp hs).2
    have hce : e.created_at < o.created_at := hc e (List.mem_cons_self _ _)
    by_cases h : o.price < e.price ∨ (o.price = e.price ∧ o.created_at < e.created_at)
    · have hep : o.price < e.price := by
        rcases h with h | ⟨_, habs⟩
        · exact h
        · exact absurd habs (by omega)
      simp only [insert_ask, if_pos h]
      constructor
      · refine List.pairwise_cons.mpr ⟨?_, hs⟩
        intro x hx
        rcases List.mem_cons.mp hx with rfl | hxr
        · exact Or.inl hep
        · have := hs1 x hxr
          left
          rcases this with h2 | ⟨h2, _⟩
          · linarith
          · rw [h2] at hep; exact hep
      · refine ⟨[], e :: rest, rfl, rfl, by simp, ?_⟩
        intro x hx
        rcases List.mem_cons.mp hx with rfl | hxr
        · exact hep
        · rcases hs1 x hxr with h2 | ⟨h2, _⟩
          · linarith
          · rw [h2] at hep; exact hep
    · have hop : e.price ≤ o.price := by
        push_neg at h
        exact h.1
      simp only [insert_ask, if_neg h]
      obtain ⟨hsorted, l1, l2, heq, hsplit, h1, h2⟩ :=
        ih hs2 (fun x hx => hc x (List.mem_cons_of_mem _ hx))
      constructor
      · refine List.pairwise_cons.mpr ⟨?_, hsorted⟩
        intro x hx
        rw [heq] at hx
        rcases List.mem_append.mp hx with hx1 | hx2
        · exact hs1 x (hsplit ▸ List.mem_append.mpr (Or.inl hx1))
        · rcases List.mem_cons.mp hx2 with rfl | hx3
          · rcases lt_or_eq_of_le hop with hlt | heqp
            · exact Or.inl hlt
            · exact Or.inr ⟨heqp, le_of_lt hce⟩
          · exact hs1 x (hsplit ▸ List.mem_append.mpr (Or.inr hx3))
      · refine ⟨e :: l1, l2, by rw [heq, List.cons_append],
          by rw [hsplit, List.cons_append], ?_, h2⟩
        intro x hx
        rcases List.mem_cons.mp hx with rfl | hx1
        · exact hop
        · exact h1 x hx1

/-- C6 amended: under PRO_RATA, a residual limit order is inserted
keeping its side in price-time priority order (bids best-first
descending, asks ascending, ties by earlier created_at) and is placed at
the tail of its price level (after all equal-priced, earlier orders,
before all strictly worse-priced ones); under FIFO the order is appended
at the end of the side list, so levels are not kept best-first and the
book can end up crossed (C6_counterexample). -/
theorem C6_insertion (o : Order) (book : OrderBook) :
    (o.side = .buy → List.Pairwise bid_priority book.bids →
      (∀ e ∈ book.bids, e.created_at < o.created_at) →
      List.Pairwise bid_priority (add_to_orderbook .PRO_RATA o book).bids ∧
      ∃ l1 l2, (add_to_orderbook .PRO_RATA o book).bids = l1 ++ o :: l2 ∧
        book.bids = l1 ++ l2 ∧ (∀ e ∈ l1, o.price ≤ e.price) ∧
        (∀ e ∈ l2, e.price < o.price)) ∧
    (o.side = .sell → List.Pairwise ask_priority book.asks →
      (∀ e ∈ book.asks, e.created_at < o.created_at) →
      List.Pairwise ask_priority (add_to_orderbook .PRO_RATA o book).asks ∧
      ∃ l1 l2, (add_to_orderbook .PRO_RATA o book).asks = l1 ++ o :: l2 ∧
        book.asks = l1 ++ l2 ∧ (∀ e ∈ l1, e.price ≤ o.price) ∧
        (∀ e ∈ l2, o.price < e.price)) ∧
    (o.side = .buy →
      (add_to_orderbook .FIFO o book).bids = book.bids ++ [o]) ∧
    (o.side = .sell →
      (add_to_orderbook .FIFO o book).asks = book.asks ++ [o]) := by
  refine ⟨?_, ?_, ?_, ?_⟩
  · intro hside hs hc
    simp only [add_to_orderbook, hside]
    exact insert_bid_sorted o book.bids hs hc
  · intro hside hs hc
    simp only [add_to_orderbook, hside]
    exact insert_ask_sorted o book.asks hs hc
  · intro hside
    simp [add_to_orderbook, hside]
  · intro hside
    simp [add_to_orderbook, hside]

/-- C6 witness: inserting a buy at 49500 (created later) into the sorted
bid side with prices 50000 and 49000 keeps the side sorted under
PRO_RATA and appends under FIFO. -/
theorem C6_insertion_witness :
    List.Pairwise bid_priority (add_to_orderbook .PRO_RATA
      ⟨3, 3, 7, .buy, 49500, 1, 0, 1, .open_, 0, 3, none⟩
      ⟨[⟨1, 1, 8, .buy, 50000, 1, 0, 1, .open_, 0, 1, none⟩,
        ⟨2, 2, 8, .buy, 49000, 1, 0, 1, .open_, 0, 2, none⟩], []⟩).bids ∧
    (add_to_orderbook .FIFO
      ⟨3, 3, 7, .buy, 49500, 1, 0, 1, .open_, 0, 3, none⟩
      ⟨[⟨1, 1, 8, .buy, 50000, 1, 0, 1, .open_, 0, 1, none⟩,
        ⟨2, 2, 8, .buy, 49000, 1, 0, 1, .open_, 0, 2, none⟩], []⟩).bids =
      [⟨1, 1, 8, .buy, 50000, 1, 0, 1, .open_, 0, 1, none⟩,
       ⟨2, 2, 8, .buy, 49000, 1, 0, 1, .open_, 0, 2, none⟩,
       ⟨3, 3, 7, .buy, 49500, 1, 0, 1, .open_, 0, 3, none⟩] := by
  have h := C6_insertion
    ⟨3, 3, 7, .buy, 49500, 1, 0, 1, .open_, 0, 3, none⟩
    ⟨[⟨1, 1, 8, .buy, 50000, 1, 0, 1, .open_, 0, 1, none⟩,
      ⟨2, 2, 8, .buy, 49000, 1, 0, 1, .open_, 0, 2, none⟩], []⟩
  refine ⟨(h.1 rfl ?_ ?_).1, ?_⟩
  · refine List.pairwise_cons.mpr ⟨?_, List.pairwise_singleton _ _⟩
    intro x hx
    rcases List.mem_cons.mp hx with rfl | hx1
    · left; norm_num
    · simp at hx1
  · intro e he
    fin_cases he <;> norm_num
  · rw [h.2.2.1 rfl]
    rfl

/-- C9 counterexample: with two resting bids at the same price 50000
with remainders 1 and 2, the snapshot returns two per-order entries of
the same price, and no entry carries the per-level aggregate quantity 3
(nor an order count): the snapshot is per order, not per price level. -/
theorem C9_counterexample :
    (get_orderbook
      ⟨[⟨1, 1, 7, .buy, 50000, 1, 0, 1, .open_, 0, 1, none⟩,
        ⟨2, 2, 8, .buy, 50000, 2, 0, 2, .open_, 0, 2, none⟩], []⟩ 20).1
      = [⟨50000, 1, 50000⟩, ⟨50000, 2, 100000⟩] ∧
    ((([(⟨1, 1, 7, .buy, 50000, 1, 0, 1, .open_, 0, 1, none⟩ : Order),
        ⟨2, 2, 8, .buy, 50000, 2, 0, 2, .open_, 0, 2, none⟩].filter
        (fun o => o.price = 50000)).map Order.remaining_quantity).sum = 3) ∧
    (∀ e ∈ [(⟨50000, 1, 50000⟩ : BookEntry), ⟨50000, 2, 100000⟩],
      e.quantity ≠ 3) := by
  refine ⟨?_, ?_, ?_⟩
  · norm_num [get_orderbook, order_entry]
  · norm_num [List.filter]
  · intro e he
    fin_cases he <;> norm_num

/-- C9 amended: the snapshot returns per side at most depth entries, one
per resting order in book-list order (the first depth orders of the
side), each carrying that order's price, its remaining quantity and
their product; there is no per-price aggregation and no order count. -/
theorem C9_snapshot_shape (book : OrderBook) (depth : Nat) :
    (get_orderbook book depth).1.length ≤ depth ∧
    (get_orderbook book depth).2.length ≤ depth ∧
    (∀ e ∈ (get_orderbook book depth).1, ∃ o ∈ book.bids,
      e = ⟨o.price, o.remaining_quantity, o.price * o.remaining_quantity⟩) ∧
    (∀ e ∈ (get_orderbook book depth).2, ∃ o ∈ book.asks,
      e = ⟨o.price, o.remaining_quantity, o.price * o.remaining_quantity⟩) ∧
    (get_orderbook book depth).1 = (book.bids.take depth).map order_entry ∧
    (get_orderbook book depth).2 = (book.asks.take depth).map order_entry := by
  refine ⟨?_, ?_, ?_, ?_, rfl, rfl⟩
  · simp only [get_orderbook, List.length_map]
    exact List.length_take_le _ _
  · simp only [get_orderbook, List.length_map]
    exact List.length_take_le _ _
  · intro e he
    simp only [get_orderbook] at he
    obtain ⟨o, ho, rfl⟩ := List.mem_map.mp he
    exact ⟨o, List.take_subset _ _ ho, rfl⟩
  · intro e he
    simp only [get_orderbook] at he
    obtain ⟨o, ho, rfl⟩ := List.mem_map.mp he
    exact ⟨o, List.take_subset _ _ ho, rfl⟩

/-- C9 witness: C9_snapshot_shape at a one-bid book with depth 20. -/
theorem C9_snapshot_shape_witness :
    (get_orderbook
      ⟨[⟨1, 1, 7, .buy, 50000, 1, 0, 1, .open_, 0, 1, none⟩], []⟩ 20).1.length
      ≤ 20 ∧
    ∃ o ∈ [(⟨1, 1, 7, .buy, 50000, 1, 0, 1, .open_, 0, 1, none⟩ : Order)],
      (BookEntry.mk 50000 1 50000)
        = ⟨o.price, o.remaining_quantity, o.price * o.remaining_quantity⟩ := by
  have h := C9_snapshot_shape
    ⟨[⟨1, 1, 7, .buy, 50000, 1, 0, 1, .open_, 0, 1, none⟩], []⟩ 20
  refine ⟨h.1, h.2.2.1 ⟨50000, 1, 50000⟩ ?_⟩
  norm_num [get_orderbook, order_entry]

end Spec2Proof
